import Mathlib

/-!
Shallow embedding of `playlister` (src/src/main.rs), a CLI that scans an
album directory and writes an m3u8 playlist sorted by track order.

Paths and strings are modelled as `List Char` (the code works on UTF-8
`Utf8PathBuf` / `str`); `u64` values are `Nat` with an explicit bound
check at the one place Rust's `str::parse::<u64>` can overflow.
-/

/-- Character-list strings, the model of Rust `str` / `Utf8PathBuf`. -/
abbrev Str := List Char

/-- Convenience conversion from a Lean string literal to the model type. -/
def chars (s : String) : Str := s.data

/-- The compiled-in audio extension set (`AUDIO_EXT` in main.rs, a `phf::Set`). -/
def AUDIO_EXT : List Str :=
  [chars "mp3",
   chars "flac", chars "opus", chars "ape", chars "ogg", chars "mka",
   chars "aac", chars "alac", chars "m4a", chars "caf",
   chars "wma", chars "wav"]

/-- Largest value of Rust's `u64`. -/
def U64MAX : Nat := 2 ^ 64 - 1

/-- Value of a string of ASCII digits read as a decimal number. -/
def decimalValue (s : Str) : Nat :=
  s.foldl (fun a c => 10 * a + (c.toNat - 48)) 0

/-- Model of Rust `str::parse::<u64>` (`u64::from_str`): an optional leading
`'+'`, then a non-empty run of ASCII digits; anything else, or a value
exceeding `u64::MAX`, is a parse error (`none`). -/
def parseU64 (s : Str) : Option Nat :=
  let digits := if s.head? = some '+' then s.tail else s
  if digits = [] then none
  else if digits.all Char.isDigit then
    if decimalValue digits ≤ U64MAX then some (decimalValue digits) else none
  else none

/-- ASCII-only lower-casing of one character (Rust `u8::to_ascii_lowercase`). -/
def lowerAscii (c : Char) : Char :=
  if 'A' ≤ c ∧ c ≤ 'Z' then Char.ofNat (c.toNat + 32) else c

/-- Split a path on `'/'` separators (auxiliary for the `std::path` model). -/
def splitSlash : Str → List Str
  | [] => [[]]
  | c :: rest =>
    if c = '/' then [] :: splitSlash rest
    else
      match splitSlash rest with
      | [] => [[c]]
      | h :: t => (c :: h) :: t

/-- Normal components of a path: empty pieces (repeated or trailing slashes)
and `"."` pieces are dropped, as in `std::path::Components`. -/
def pathComponents (p : Str) : List Str :=
  (splitSlash p).filter (fun c => ¬(c = [] ∨ c = chars "."))

/-- Model of `Utf8Path::file_name` (camino delegates to `std::path::Path`):
the last normal component, unless it is `".."`. -/
def fileNameOpt (p : Str) : Option Str :=
  ((pathComponents p).getLast?).bind
    (fun c => if c = chars ".." then none else some c)

/-- Extension of a file-name component, per `std::path`'s
`split_file_at_dot`: `".."` has none; otherwise the part after the last
`'.'`, unless there is no `'.'` or the only `'.'` is the leading character. -/
def extensionOfName (f : Str) : Option Str :=
  if f = chars ".." then none
  else
    let r := (f.reverse.takeWhile (fun c => c ≠ '.')).reverse
    if r.length = f.length then none
    else if r.length + 1 = f.length then none
    else some r

/-- Model of `Utf8Path::extension`: the extension of the file name, if any. -/
def extensionOpt (p : Str) : Option Str :=
  (fileNameOpt p).bind extensionOfName

deriving instance DecidableEq for Except

/-- The collected track entry (`struct Audiophile` in main.rs). -/
structure Audiophile where
  order : Nat
  name : Str
deriving DecidableEq, Repr

/-- `enum NotAudiophile`: why a path was not accepted outright. -/
inductive NotAudiophile where
  | NoExt
  | HasExtNoOrder
deriving DecidableEq, Repr

/-- The digit-scan-and-parse part of `Audiophile::try_from`: the loop over
`char_indices` leaves `num_idx` at the first non-digit position (or the
length, via the `'\x00'` sentinel), so the slice parsed is exactly the
maximal leading digit run of the file name. -/
def filename_order (fname : Str) : Option Nat :=
  parseU64 (fname.takeWhile Char.isDigit)

/-- Model of `impl TryFrom<Utf8PathBuf> for Audiophile`. -/
def tryFrom (v : Str) : Except (Str × NotAudiophile) Audiophile :=
  match extensionOpt v with
  | none => .error (v, .NoExt)
  | some ext =>
    if ext ∈ AUDIO_EXT then
      match fileNameOpt v with
      | none => .error (v, .HasExtNoOrder)
      | some fname =>
        match filename_order fname with
        | none => .error (v, .HasExtNoOrder)
        | some order => .ok ⟨order, v⟩
    else .error (v, .NoExt)

/-- Model of `get_track`: scan the metadata pairs in order; on a key whose
ASCII-lower-cased form is `"track"`, parse the part of the value before the
first `'/'` (`split_once`); the first successful parse returns, a failed
parse falls through to the remaining pairs. -/
def get_track : List (Str × Str) → Option Nat
  | [] => none
  | (k, v) :: rest =>
    if k.map lowerAscii = chars "track" then
      match parseU64 (v.takeWhile (fun c => c ≠ '/')) with
      | some track => some track
      | none => get_track rest
    else get_track rest

/-- Model of `Audiophile::parse_tags`. The demuxer call
`ffmpeg_next::format::input` is an external capability; its outcome for the
file is supplied as `demux`: `none` is an open/IO failure (the Rust `?`
propagates it), `some tags` the metadata pairs it exposes. -/
def parse_tags (file : Str) (demux : Option (List (Str × Str))) :
    Option (Except Str Audiophile) :=
  match demux with
  | none => none
  | some tags =>
    match get_track tags with
    | some track => some (.ok ⟨track, file⟩)
    | none => some (.error file)

/-- One directory entry as the scanner observes it: the result of
`file_type()` (`none` = IO error, `some b` = `is_file()`), the result of
converting the OS file name to UTF-8 (`none` = non-UTF-8 name), and the
demuxer outcome were the file's metadata to be read. -/
structure DirEntry where
  ftypeRes : Option Bool
  nameUtf8 : Option Str
  meta : Option (List (Str × Str))
deriving DecidableEq, Repr

/-- One item yielded by `fs::read_dir`: `err` models an `Err` from the
iterator (the `file?` line), `ok` a readable entry. -/
inductive EntryResult where
  | err
  | ok (e : DirEntry)
deriving DecidableEq, Repr

/-- The IO errors `collect_audio_files` can propagate, by source. -/
inductive IOError where
  | entryRead
  | fileType
  | nonUtf8
  | demux
deriving DecidableEq, Repr

/-- The warnings `write_warn` can emit during a scan. -/
inductive Warning where
  | initFallback
  | unorderable (name : Str)
deriving DecidableEq, Repr

/-- The loop body of `collect_audio_files`, with the `ffmpegd` one-shot
flag threaded through; returns the warnings emitted (stderr) and either
the collected entries in scan order or the propagated IO error. -/
def collectGo : List EntryResult → Bool → List Warning × Except IOError (List Audiophile)
  | [], _ => ([], .ok [])
  | .err :: _, _ => ([], .error .entryRead)
  | .ok e :: rest, ffmpegd =>
    match e.ftypeRes with
    | none => ([], .error .fileType)
    | some false => collectGo rest ffmpegd
    | some true =>
      match e.nameUtf8 with
      | none => ([], .error .nonUtf8)
      | some filename =>
        match tryFrom filename with
        | .ok af =>
          ((collectGo rest ffmpegd).1, (collectGo rest ffmpegd).2.map (af :: ·))
        | .error (_, .NoExt) => collectGo rest ffmpegd
        | .error (buf, .HasExtNoOrder) =>
          let w0 : List Warning := if ffmpegd then [] else [.initFallback]
          match parse_tags buf e.meta with
          | none => (w0, .error .demux)
          | some (.ok af) =>
            (w0 ++ (collectGo rest true).1, (collectGo rest true).2.map (af :: ·))
          | some (.error buf) =>
            (w0 ++ Warning.unorderable buf :: (collectGo rest true).1,
             (collectGo rest true).2)

/-- Model of `collect_audio_files`: scan with the fallback flag initially
unset. -/
def collect_audio_files (entries : List EntryResult) :
    List Warning × Except IOError (List Audiophile) :=
  collectGo entries false

/-- One output line of the emission loop: `af.name.file_name().unwrap()`
followed by the newline `writeln!`/`+= "\n"` appends; `none` models the
`unwrap` panic. -/
def lineOf (af : Audiophile) : Option Str :=
  (fileNameOpt af.name).map (fun n => n ++ chars "\n")

/-- The emission loop of `main`: the `out` string accumulated over the
sorted entries; a `none` anywhere models the `unwrap` panic aborting the
loop. -/
def emit : List Audiophile → Option Str
  | [] => some []
  | af :: rest => (lineOf af).bind (fun ln => (emit rest).map (fun out => ln ++ out))

/-- Model of `main` after argument parsing, parametrised by the behaviour
of `sort_unstable_by_key` (`sortFn`): on a scan error the `?` short-circuits
and `fs::write` is never reached; otherwise the emitted blob is written. -/
def main_run (entries : List EntryResult)
    (sortFn : List Audiophile → List Audiophile) :
    List Warning × Except IOError (Option Str) :=
  match (collect_audio_files entries).2 with
  | .error e => ((collect_audio_files entries).1, .error e)
  | .ok data => ((collect_audio_files entries).1, .ok (emit (sortFn data)))

/-- The audio predicate as the scanner applies it: extension present and in
the set (the `AUDIO_EXT.contains(ext)` test of `Audiophile::try_from`). -/
def is_audio (v : Str) : Bool :=
  match extensionOpt v with
  | none => false
  | some ext => decide (ext ∈ AUDIO_EXT)

/-- The audio predicate as the claim words it: the token after the final
`'.'` of the name (whenever the name contains a `'.'` at all) is a member
of the set. -/
def is_audio_claim (name : Str) : Bool :=
  let r := (name.reverse.takeWhile (fun c => c ≠ '.')).reverse
  if r.length = name.length then false else decide (r ∈ AUDIO_EXT)

/-- The metadata order parser as the claim words it: only the first key
whose ASCII-case-folded form equals `"track"` is consulted; if its value
fails to parse, the result is no order. -/
def get_track_spec (l : List (Str × Str)) : Option Nat :=
  match l.find? (fun kv => decide (kv.1.map lowerAscii = chars "track")) with
  | none => none
  | some kv => parseU64 (kv.2.takeWhile (fun c => c ≠ '/'))

/-- How many entries of the scan escalate to the metadata fallback before
the scan stops (at the end of the listing or at the first IO error). -/
def reachedEscalations : List EntryResult → Nat
  | [] => 0
  | .err :: _ => 0
  | .ok e :: rest =>
    match e.ftypeRes with
    | none => 0
    | some false => reachedEscalations rest
    | some true =>
      match e.nameUtf8 with
      | none => 0
      | some filename =>
        match tryFrom filename with
        | .ok _ => reachedEscalations rest
        | .error (_, .NoExt) => reachedEscalations rest
        | .error (_, .HasExtNoOrder) =>
          match e.meta with
          | none => 1
          | some _ => 1 + reachedEscalations rest

/-- Number of fallback-initialisation warnings in a warning list. -/
def countInit (w : List Warning) : Nat :=
  w.countP (fun x => decide (x = Warning.initFallback))

/-! ### Helper lemmas -/

/-- Parsing the maximal digit run: empty run fails, otherwise success is
exactly the no-overflow case and yields the decimal value. -/
theorem parseU64_takeWhile_digits (l : Str) :
    parseU64 (l.takeWhile Char.isDigit) =
      if l.takeWhile Char.isDigit = [] then none
      else if decimalValue (l.takeWhile Char.isDigit) ≤ U64MAX
           then some (decimalValue (l.takeWhile Char.isDigit)) else none := by
  have hall : (l.takeWhile Char.isDigit).all Char.isDigit = true := List.all_takeWhile
  cases h : l.takeWhile Char.isDigit with
  | nil => simp [parseU64]
  | cons c t =>
    rw [h] at hall
    simp only [List.all_cons, Bool.and_eq_true] at hall
    have hplus : c ≠ '+' := by
      intro e
      rw [e] at hall
      exact absurd hall.1 (by decide)
    simp [parseU64, hplus, List.all_cons, hall.1, hall.2]

theorem splitSlash_ne_nil (p : Str) : splitSlash p ≠ [] := by
  induction p with
  | nil => simp [splitSlash]
  | cons c rest ih =>
    simp only [splitSlash]
    split
    · simp
    · split <;> simp

theorem mem_splitSlash_no_slash {p n : Str} (h : n ∈ splitSlash p) : '/' ∉ n := by
  induction p generalizing n with
  | nil =>
    simp only [splitSlash, List.mem_singleton] at h
    subst h
    simp
  | cons c rest ih =>
    simp only [splitSlash] at h
    by_cases hc : c = '/'
    · rw [if_pos hc] at h
      rcases List.mem_cons.mp h with h1 | h1
      · subst h1; simp
      · exact ih h1
    · rw [if_neg hc] at h
      rcases he : splitSlash rest with _ | ⟨hd, tl⟩
      · exact absurd he (splitSlash_ne_nil rest)
      · rw [he] at h
        rcases List.mem_cons.mp h with h1 | h1
        · subst h1
          intro hm
          rcases List.mem_cons.mp hm with h2 | h2
          · exact hc h2.symm
          · exact ih (he ▸ List.mem_cons_self hd tl) h2
        · exact ih (he ▸ List.mem_cons.mpr (Or.inr h1))

theorem splitSlash_no_slash {p : Str} (h : '/' ∉ p) : splitSlash p = [p] := by
  induction p with
  | nil => rfl
  | cons c rest ih =>
    have hc : c ≠ '/' := fun e => h (e ▸ List.mem_cons_self c rest)
    have hr : '/' ∉ rest := fun m => h (List.mem_cons.mpr (Or.inr m))
    simp only [splitSlash, if_neg hc, ih hr]

theorem fileNameOpt_base {p : Str} (h1 : '/' ∉ p) (h2 : p ≠ [])
    (h3 : p ≠ chars ".") (h4 : p ≠ chars "..") : fileNameOpt p = some p := by
  have : pathComponents p = [p] := by
    simp only [pathComponents, splitSlash_no_slash h1, List.filter]
    have : ¬(p = [] ∨ p = chars ".") := by
      rintro (e | e)
      · exact h2 e
      · exact h3 e
    simp [this]
  simp [fileNameOpt, this, h4]

theorem fileNameOpt_mem {p n : Str} (h : fileNameOpt p = some n) :
    n ∈ pathComponents p := by
  unfold fileNameOpt at h
  rcases hg : (pathComponents p).getLast? with _ | c
  · rw [hg] at h; exact absurd h (by simp)
  · rw [hg] at h
    by_cases hc : c = chars ".."
    · dsimp only [Option.bind] at h
      rw [if_pos hc] at h
      exact absurd h (by simp)
    · dsimp only [Option.bind] at h
      rw [if_neg hc] at h
      have : c = n := by injection h
      subst this
      exact List.mem_of_mem_getLast? (hg ▸ rfl)

theorem fileNameOpt_ne_nil {p n : Str} (h : fileNameOpt p = some n) : n ≠ [] := by
  have hm := fileNameOpt_mem h
  unfold pathComponents at hm
  have := List.of_mem_filter hm
  intro e
  subst e
  simp at this

theorem fileNameOpt_no_slash {p n : Str} (h : fileNameOpt p = some n) : '/' ∉ n := by
  have hm := fileNameOpt_mem h
  exact mem_splitSlash_no_slash (List.mem_of_mem_filter hm)

theorem extensionOpt_fileName {v ext : Str} (h : extensionOpt v = some ext) :
    ∃ f, fileNameOpt v = some f ∧ extensionOfName f = some ext := by
  unfold extensionOpt at h
  rcases hf : fileNameOpt v with _ | f
  · rw [hf] at h; exact absurd h (by simp)
  · rw [hf] at h
    dsimp only [Option.bind] at h
    exact ⟨f, rfl, h⟩

theorem chars_newline : chars "\n" = ['\n'] := rfl

/-! ### Unfolding lemmas for one scanner step -/

theorem collectGo_nil (b : Bool) : collectGo [] b = ([], .ok []) := rfl

theorem collectGo_err (rest : List EntryResult) (b : Bool) :
    collectGo (.err :: rest) b = ([], .error .entryRead) := rfl

theorem collectGo_ftErr {e : DirEntry} (rest : List EntryResult) (b : Bool)
    (h1 : e.ftypeRes = none) :
    collectGo (.ok e :: rest) b = ([], .error .fileType) := by
  simp only [collectGo, h1]

theorem collectGo_notFile {e : DirEntry} (rest : List EntryResult) (b : Bool)
    (h1 : e.ftypeRes = some false) :
    collectGo (.ok e :: rest) b = collectGo rest b := by
  simp only [collectGo, h1]

theorem collectGo_utf8Err {e : DirEntry} (rest : List EntryResult) (b : Bool)
    (h1 : e.ftypeRes = some true) (h2 : e.nameUtf8 = none) :
    collectGo (.ok e :: rest) b = ([], .error .nonUtf8) := by
  simp only [collectGo, h1, h2]

theorem collectGo_accept {e : DirEntry} {fn : Str} {af : Audiophile}
    (rest : List EntryResult) (b : Bool)
    (h1 : e.ftypeRes = some true) (h2 : e.nameUtf8 = some fn)
    (h3 : tryFrom fn = .ok af) :
    collectGo (.ok e :: rest) b
      = ((collectGo rest b).1, (collectGo rest b).2.map (af :: ·)) := by
  simp only [collectGo, h1, h2, h3]

theorem collectGo_noExt {e : DirEntry} {fn w : Str}
    (rest : List EntryResult) (b : Bool)
    (h1 : e.ftypeRes = some true) (h2 : e.nameUtf8 = some fn)
    (h3 : tryFrom fn = .error (w, .NoExt)) :
    collectGo (.ok e :: rest) b = collectGo rest b := by
  simp only [collectGo, h1, h2, h3]

theorem collectGo_demuxErr {e : DirEntry} {fn w : Str}
    (rest : List EntryResult) (b : Bool)
    (h1 : e.ftypeRes = some true) (h2 : e.nameUtf8 = some fn)
    (h3 : tryFrom fn = .error (w, .HasExtNoOrder)) (h4 : e.meta = none) :
    collectGo (.ok e :: rest) b
      = (if b then [] else [.initFallback], .error .demux) := by
  simp only [collectGo, h1, h2, h3, h4, parse_tags]

theorem collectGo_metaOrder {e : DirEntry} {fn w : Str} {tags : List (Str × Str)} {tr : Nat}
    (rest : List EntryResult) (b : Bool)
    (h1 : e.ftypeRes = some true) (h2 : e.nameUtf8 = some fn)
    (h3 : tryFrom fn = .error (w, .HasExtNoOrder)) (h4 : e.meta = some tags)
    (h5 : get_track tags = some tr) :
    collectGo (.ok e :: rest) b
      = ((if b then [] else [.initFallback]) ++ (collectGo rest true).1,
         (collectGo rest true).2.map (Audiophile.mk tr w :: ·)) := by
  simp only [collectGo, h1, h2, h3, h4, h5, parse_tags]

theorem collectGo_metaNoOrder {e : DirEntry} {fn w : Str} {tags : List (Str × Str)}
    (rest : List EntryResult) (b : Bool)
    (h1 : e.ftypeRes = some true) (h2 : e.nameUtf8 = some fn)
    (h3 : tryFrom fn = .error (w, .HasExtNoOrder)) (h4 : e.meta = some tags)
    (h5 : get_track tags = none) :
    collectGo (.ok e :: rest) b
      = ((if b then [] else [.initFallback]) ++ Warning.unorderable w :: (collectGo rest true).1,
         (collectGo rest true).2) := by
  simp only [collectGo, h1, h2, h3, h4, h5, parse_tags]

/-! ### Facts about tryFrom and emit -/

theorem tryFrom_ok_props {v : Str} {af : Audiophile} (h : tryFrom v = .ok af) :
    af.name = v ∧ ∃ n, fileNameOpt v = some n := by
  unfold tryFrom at h
  rcases hx : extensionOpt v with _ | ext
  · rw [hx] at h; exact Except.noConfusion h
  · rw [hx] at h
    dsimp only at h
    by_cases hm : ext ∈ AUDIO_EXT
    · rw [if_pos hm] at h
      rcases hf : fileNameOpt v with _ | f
      · rw [hf] at h; exact Except.noConfusion h
      · rw [hf] at h
        dsimp only at h
        rcases ho : filename_order f with _ | o
        · rw [ho] at h; exact Except.noConfusion h
        · rw [ho] at h
          injection h with h
          exact ⟨by rw [← h], f, rfl⟩
    · rw [if_neg hm] at h; exact Except.noConfusion h

theorem tryFrom_hasExt_props {v w : Str}
    (h : tryFrom v = .error (w, .HasExtNoOrder)) :
    w = v ∧ ∃ n, fileNameOpt v = some n := by
  unfold tryFrom at h
  rcases hx : extensionOpt v with _ | ext
  · rw [hx] at h
    injection h with h
    injection h with h1 h2
    exact NotAudiophile.noConfusion h2
  · rw [hx] at h
    dsimp only at h
    obtain ⟨f, hf, _⟩ := extensionOpt_fileName hx
    by_cases hm : ext ∈ AUDIO_EXT
    · rw [if_pos hm, hf] at h
      dsimp only at h
      rcases ho : filename_order f with _ | o
      · rw [ho] at h
        injection h with h
        injection h with h1 h2
        exact ⟨h1.symm, f, hf⟩
      · rw [ho] at h; exact Except.noConfusion h
    · rw [if_neg hm] at h
      injection h with h
      injection h with h1 h2
      exact NotAudiophile.noConfusion h2

theorem emit_cons (af : Audiophile) (rest : List Audiophile) :
    emit (af :: rest)
      = (lineOf af).bind (fun ln => (emit rest).map (fun out => ln ++ out)) := rfl

theorem emit_some_names {l : List Audiophile} {out : Str} (h : emit l = some out) :
    ∃ names : List Str,
      List.Forall₂ (fun af n => fileNameOpt af.name = some n) l names ∧
      out = (names.map (fun n => n ++ chars "\n")).flatten := by
  induction l generalizing out with
  | nil =>
    refine ⟨[], List.Forall₂.nil, ?_⟩
    have : out = [] := by
      have := h.symm
      injection this
    simp [this]
  | cons af rest ih =>
    rw [emit_cons] at h
    rcases hl : lineOf af with _ | ln
    · rw [hl] at h; exact Option.noConfusion h
    · rw [hl] at h
      dsimp only [Option.bind] at h
      rcases he : emit rest with _ | out'
      · rw [he] at h; exact Option.noConfusion h
      · rw [he] at h
        dsimp only [Option.map] at h
        injection h with h
        obtain ⟨names, hfa, hout⟩ := ih he
        unfold lineOf at hl
        rcases hn : fileNameOpt af.name with _ | n
        · rw [hn] at hl; exact Option.noConfusion hl
        · rw [hn] at hl
          dsimp only [Option.map] at hl
          injection hl with hl
          refine ⟨n :: names, List.Forall₂.cons hn hfa, ?_⟩
          rw [← h, ← hl, hout]
          simp

theorem emit_isSome {l : List Audiophile}
    (h : ∀ af ∈ l, ∃ n, fileNameOpt af.name = some n) :
    (emit l).isSome = true := by
  induction l with
  | nil => rfl
  | cons af rest ih =>
    obtain ⟨n, hn⟩ := h af (List.mem_cons_self af rest)
    have hr := ih (fun x hx => h x (List.mem_cons.mpr (Or.inr hx)))
    rcases he : emit rest with _ | out'
    · rw [he] at hr; exact absurd hr (by simp)
    · rw [emit_cons]
      unfold lineOf
      rw [hn, he]
      rfl

theorem flatten_lines_last {names : List Str} (h : names ≠ []) :
    ((names.map (fun n => n ++ chars "\n")).flatten).getLast? = some '\n' := by
  induction names with
  | nil => exact absurd rfl h
  | cons a t ih =>
    cases t with
    | nil => simp [chars_newline, List.getLast?_concat]
    | cons b t' =>
      rw [List.map_cons, List.flatten_cons, List.getLast?_append, ih (by simp)]
      rfl

/-! ### Scanner invariants -/

theorem collectGo_ok_names :
    ∀ (entries : List EntryResult) (b : Bool) (l : List Audiophile),
      (collectGo entries b).2 = .ok l →
      ∀ af ∈ l, ∃ n, fileNameOpt af.name = some n := by
  intro entries
  induction entries with
  | nil =>
    intro b l h af hm
    rw [collectGo_nil] at h
    injection h with h
    rw [← h] at hm
    exact absurd hm (by simp)
  | cons x rest ih =>
    intro b l h af hm
    cases x with
    | err => rw [collectGo_err] at h; exact Except.noConfusion h
    | ok e =>
      rcases hft : e.ftypeRes with _ | bf
      · rw [collectGo_ftErr rest b hft] at h; exact Except.noConfusion h
      · cases bf with
        | false =>
          rw [collectGo_notFile rest b hft] at h
          exact ih b l h af hm
        | true =>
          rcases hnm : e.nameUtf8 with _ | fn
          · rw [collectGo_utf8Err rest b hft hnm] at h; exact Except.noConfusion h
          · rcases htf : tryFrom fn with ⟨w, reason⟩ | af'
            · cases reason with
              | NoExt =>
                rw [collectGo_noExt rest b hft hnm htf] at h
                exact ih b l h af hm
              | HasExtNoOrder =>
                rcases hmt : e.meta with _ | tags
                · rw [collectGo_demuxErr rest b hft hnm htf hmt] at h
                  exact Except.noConfusion h
                · rcases hgt : get_track tags with _ | tr
                  · rw [collectGo_metaNoOrder rest b hft hnm htf hmt hgt] at h
                    exact ih true l h af hm
                  · rw [collectGo_metaOrder rest b hft hnm htf hmt hgt] at h
                    rcases hr : (collectGo rest true).2 with e' | l'
                    · rw [hr] at h; exact Except.noConfusion h
                    · rw [hr] at h
                      dsimp only [Except.map] at h
                      injection h with h
                      rw [← h] at hm
                      rcases List.mem_cons.mp hm with h1 | h1
                      · subst h1
                        obtain ⟨hw, n, hn⟩ := tryFrom_hasExt_props htf
                        refine ⟨n, ?_⟩
                        show fileNameOpt w = some n
                        rw [hw]
                        exact hn
                      · exact ih true l' hr af h1
            · rw [collectGo_accept rest b hft hnm htf] at h
              rcases hr : (collectGo rest b).2 with e' | l'
              · rw [hr] at h; exact Except.noConfusion h
              · rw [hr] at h
                dsimp only [Except.map] at h
                injection h with h
                rw [← h] at hm
                rcases List.mem_cons.mp hm with h1 | h1
                · subst h1
                  obtain ⟨hname, n, hn⟩ := tryFrom_ok_props htf
                  exact ⟨n, by rw [hname]; exact hn⟩
                · exact ih b l' hr af h1

theorem countInit_collectGo :
    ∀ (entries : List EntryResult) (b : Bool),
      countInit (collectGo entries b).1
        = if b then 0 else min 1 (reachedEscalations entries) := by
  intro entries
  induction entries with
  | nil =>
    intro b
    rw [collectGo_nil]
    cases b <;> simp [countInit, reachedEscalations]
  | cons x rest ih =>
    intro b
    cases x with
    | err =>
      rw [collectGo_err]
      cases b <;> simp [countInit, reachedEscalations]
    | ok e =>
      rcases hft : e.ftypeRes with _ | bf
      · rw [collectGo_ftErr rest b hft]
        cases b <;> simp [countInit, reachedEscalations, hft]
      · cases bf with
        | false =>
          rw [collectGo_notFile rest b hft]
          rw [ih b]
          cases b <;> simp [reachedEscalations, hft]
        | true =>
          rcases hnm : e.nameUtf8 with _ | fn
          · rw [collectGo_utf8Err rest b hft hnm]
            cases b <;> simp [countInit, reachedEscalations, hft, hnm]
          · rcases htf : tryFrom fn with ⟨w, reason⟩ | af'
            · cases reason with
              | NoExt =>
                rw [collectGo_noExt rest b hft hnm htf]
                rw [ih b]
                cases b <;> simp [reachedEscalations, hft, hnm, htf]
              | HasExtNoOrder =>
                rcases hmt : e.meta with _ | tags
                · rw [collectGo_demuxErr rest b hft hnm htf hmt]
                  cases b <;>
                    simp [countInit, reachedEscalations, hft, hnm, htf, hmt]
                · rcases hgt : get_track tags with _ | tr
                  · rw [collectGo_metaNoOrder rest b hft hnm htf hmt hgt]
                    have := ih true
                    cases b <;>
                      simp_all [countInit, reachedEscalations, hft, hnm, htf, hmt]
                  · rw [collectGo_metaOrder rest b hft hnm htf hmt hgt]
                    have := ih true
                    cases b <;>
                      simp_all [countInit, reachedEscalations, hft, hnm, htf, hmt]
            · rw [collectGo_accept rest b hft hnm htf]
              rw [show ((collectGo rest b).1, (collectGo rest b).2.map (af' :: ·)).1
                    = (collectGo rest b).1 from rfl]
              rw [ih b]
              cases b <;> simp [reachedEscalations, hft, hnm, htf]

theorem initFallback_not_mem_of_flag (entries : List EntryResult) :
    Warning.initFallback ∉ (collectGo entries true).1 := by
  intro hmem
  have h : countInit (collectGo entries true).1 = 0 := by
    rw [countInit_collectGo]
    rfl
  rw [countInit, List.countP_eq_zero] at h
  have := h Warning.initFallback hmem
  simp at this

theorem initFallback_head :
    ∀ (entries : List EntryResult),
      Warning.initFallback ∈ (collectGo entries false).1 →
      (collectGo entries false).1.head? = some Warning.initFallback := by
  intro entries
  induction entries with
  | nil =>
    intro h
    rw [collectGo_nil] at h
    exact absurd h (by simp)
  | cons x rest ih =>
    intro h
    cases x with
    | err =>
      rw [collectGo_err] at h
      exact absurd h (by simp)
    | ok e =>
      rcases hft : e.ftypeRes with _ | bf
      · rw [collectGo_ftErr rest false hft] at h
        exact absurd h (by simp)
      · cases bf with
        | false =>
          rw [collectGo_notFile rest false hft] at h ⊢
          exact ih h
        | true =>
          rcases hnm : e.nameUtf8 with _ | fn
          · rw [collectGo_utf8Err rest false hft hnm] at h
            exact absurd h (by simp)
          · rcases htf : tryFrom fn with ⟨w, reason⟩ | af'
            · cases reason with
              | NoExt =>
                rw [collectGo_noExt rest false hft hnm htf] at h ⊢
                exact ih h
              | HasExtNoOrder =>
                rcases hmt : e.meta with _ | tags
                · rw [collectGo_demuxErr rest false hft hnm htf hmt]
                  rfl
                · rcases hgt : get_track tags with _ | tr
                  · rw [collectGo_metaNoOrder rest false hft hnm htf hmt hgt]
                    rfl
                  · rw [collectGo_metaOrder rest false hft hnm htf hmt hgt]
                    rfl
            · rw [collectGo_accept rest false hft hnm htf] at h ⊢
              exact ih h

theorem length_takeWhile_le (p : Char → Bool) (l : Str) :
    (l.takeWhile p).length ≤ l.length := by
  induction l with
  | nil => simp
  | cons c t ih =>
    rw [List.takeWhile_cons]
    cases hp : p c
    · simp
    · simpa using Nat.succ_le_succ ih

/-! ### Claims about the two order parsers and the audio predicate -/

/-- C2: the filename order parser scans ASCII digits from position 0; a
non-digit first character means no order; otherwise the maximal digit run
is parsed as a decimal unsigned integer, leading zeros permitted
(`"007.flac"` orders as 7) and a value exceeding `u64::MAX` is no order. -/
theorem C2_filename_order_rules :
    (∀ fname : Str, (∀ c, fname.head? = some c → c.isDigit = false) →
        filename_order fname = none)
    ∧ (∀ fname : Str, fname.takeWhile Char.isDigit ≠ [] →
        filename_order fname =
          if decimalValue (fname.takeWhile Char.isDigit) ≤ U64MAX
          then some (decimalValue (fname.takeWhile Char.isDigit)) else none)
    ∧ filename_order (chars "007.flac") = some 7 := by
  refine ⟨?_, ?_, by decide⟩
  · intro fname h
    have hempty : fname.takeWhile Char.isDigit = [] := by
      cases fname with
      | nil => rfl
      | cons c rest =>
        rw [List.takeWhile_cons, h c rfl]
        rfl
    rw [filename_order, hempty]
    rfl
  · intro fname hne
    rw [filename_order, parseU64_takeWhile_digits, if_neg hne]

/-- C2 witness: the theorem applied at `"x1.flac"` (non-digit lead) and
`"12.flac"` (digit run `12`). -/
theorem C2_filename_order_rules_witness :
    filename_order (chars "x1.flac") = none ∧
    filename_order (chars "12.flac")
      = if decimalValue ((chars "12.flac").takeWhile Char.isDigit) ≤ U64MAX
        then some (decimalValue ((chars "12.flac").takeWhile Char.isDigit))
        else none := by
  constructor
  · exact C2_filename_order_rules.1 (chars "x1.flac") (by decide)
  · exact C2_filename_order_rules.2.1 (chars "12.flac") (by decide)

/-- A metadata listing on which the code and the claim's wording differ:
the first `track` key has an unparseable value, a later one parses. -/
def trackTwice : List (Str × Str) :=
  [(chars "track", chars "x"), (chars "track", chars "5")]

/-- C3 counterexample: the code skips a `track` key whose value fails to
parse and accepts a later one, while the claim's first-matching-key rule
would return no order. -/
theorem C3_counterexample :
    get_track trackTwice = some 5 ∧ get_track_spec trackTwice = none := by
  decide

/-- C3 amended: the parser considers every key whose ASCII-case-folded
form is `track`, in iteration order, and the first whose value (before any
`'/'`) parses as a decimal unsigned integer wins; no order when none
parses. -/
theorem C3_amended_first_parse_wins (l : List (Str × Str)) :
    get_track l =
      (l.filterMap (fun kv =>
        if kv.1.map lowerAscii = chars "track"
        then parseU64 (kv.2.takeWhile (fun c => c ≠ '/')) else none)).head? := by
  induction l with
  | nil => rfl
  | cons kv rest ih =>
    obtain ⟨k, v⟩ := kv
    rw [get_track]
    by_cases hk : k.map lowerAscii = chars "track"
    · rw [if_pos hk]
      rcases hp : parseU64 (v.takeWhile (fun c => c ≠ '/')) with _ | t
      · dsimp only
        rw [List.filterMap_cons_none (by dsimp only; rw [if_pos hk, hp])]
        exact ih
      · dsimp only
        rw [List.filterMap_cons_some (by dsimp only; rw [if_pos hk, hp])]
        rfl
    · rw [if_neg hk]
      rw [List.filterMap_cons_none (by dsimp only; rw [if_neg hk])]
      exact ih

/-- A name whose leading character is a digit but whose digit run
overflows `u64` (it spells 2^64). -/
def overflowName : Str := chars "18446744073709551616.flac"

/-- C5 counterexample: this audio-extensioned name leads with the digit
`'1'`, yet it classifies as `HasExtNoOrder` (the prefix overflows `u64`),
so "no filename order exactly when the leading character is not a digit"
fails. -/
theorem C5_counterexample :
    extensionOpt overflowName = some (chars "flac")
    ∧ chars "flac" ∈ AUDIO_EXT
    ∧ overflowName.head? = some '1'
    ∧ ('1').isDigit = true
    ∧ tryFrom overflowName = .error (overflowName, .HasExtNoOrder) := by
  decide

/-- C5 amended: for an entry whose extension is in the audio set, the
outcome is `HasExtNoOrder` exactly when the leading character of the file
name is not a decimal digit **or** the maximal digit run overflows `u64`;
otherwise the entry is accepted with the order parsed from that run. -/
theorem C5_amended_classification (v ext f : Str)
    (hext : extensionOpt v = some ext) (hmem : ext ∈ AUDIO_EXT)
    (hf : fileNameOpt v = some f) :
    (tryFrom v = .error (v, .HasExtNoOrder)
      ↔ (f.takeWhile Char.isDigit = []
          ∨ U64MAX < decimalValue (f.takeWhile Char.isDigit)))
    ∧ (f.takeWhile Char.isDigit = []
        ↔ ∀ c, f.head? = some c → c.isDigit = false)
    ∧ (∀ o : Nat, tryFrom v = .ok ⟨o, v⟩
        ↔ (f.takeWhile Char.isDigit ≠ []
            ∧ decimalValue (f.takeWhile Char.isDigit) ≤ U64MAX
            ∧ o = decimalValue (f.takeWhile Char.isDigit))) := by
  have hunfold : tryFrom v
      = match filename_order f with
        | none => .error (v, .HasExtNoOrder)
        | some o => .ok ⟨o, v⟩ := by
    unfold tryFrom
    rw [hext]
    dsimp only
    rw [if_pos hmem, hf]
  have hfo : filename_order f
      = if f.takeWhile Char.isDigit = [] then none
        else if decimalValue (f.takeWhile Char.isDigit) ≤ U64MAX
             then some (decimalValue (f.takeWhile Char.isDigit)) else none :=
    parseU64_takeWhile_digits f
  refine ⟨?_, ?_, ?_⟩
  · rw [hunfold, hfo]
    by_cases h0 : f.takeWhile Char.isDigit = []
    · rw [if_pos h0]
      simp [h0]
    · rw [if_neg h0]
      by_cases h1 : decimalValue (f.takeWhile Char.isDigit) ≤ U64MAX
      · rw [if_pos h1]
        dsimp only
        constructor
        · intro h; exact Except.noConfusion h
        · rintro (h | h)
          · exact absurd h h0
          · omega
      · rw [if_neg h1]
        dsimp only
        constructor
        · intro _; exact Or.inr (by omega)
        · intro _; rfl
  · cases f with
    | nil => simp
    | cons c t =>
      rw [List.takeWhile_cons]
      cases hc : c.isDigit
      · constructor
        · intro _ c' hc'
          injection hc' with hc'
          rw [← hc']
          exact hc
        · intro _
          simp
      · constructor
        · intro h
          rw [if_pos rfl] at h
          exact List.noConfusion h
        · intro h
          have h2 := h c rfl
          rw [hc] at h2
          exact Bool.noConfusion h2
  · intro o
    rw [hunfold, hfo]
    by_cases h0 : f.takeWhile Char.isDigit = []
    · rw [if_pos h0]
      dsimp only
      constructor
      · intro h; exact Except.noConfusion h
      · rintro ⟨h, -⟩; exact absurd h0 h
    · rw [if_neg h0]
      by_cases h1 : decimalValue (f.takeWhile Char.isDigit) ≤ U64MAX
      · rw [if_pos h1]
        dsimp only
        constructor
        · intro h
          injection h with h
          have : o = decimalValue (f.takeWhile Char.isDigit) := by
            have := congrArg Audiophile.order h
            simpa using this.symm
          exact ⟨h0, h1, this⟩
        · rintro ⟨-, -, h⟩
          rw [h]
      · rw [if_neg h1]
        dsimp only
        constructor
        · intro h; exact Except.noConfusion h
        · rintro ⟨-, h, -⟩; exact absurd h h1

/-- C5 amended witness: the amended classification applied at `"x.flac"`
(audio extension, non-digit lead, hence `HasExtNoOrder`). -/
theorem C5_amended_classification_witness :
    (tryFrom (chars "x.flac") = .error (chars "x.flac", .HasExtNoOrder)
      ↔ ((chars "x.flac").takeWhile Char.isDigit = []
          ∨ U64MAX < decimalValue ((chars "x.flac").takeWhile Char.isDigit)))
    ∧ ((chars "x.flac").takeWhile Char.isDigit = []
        ↔ ∀ c, (chars "x.flac").head? = some c → c.isDigit = false)
    ∧ (∀ o : Nat, tryFrom (chars "x.flac") = .ok ⟨o, chars "x.flac"⟩
        ↔ ((chars "x.flac").takeWhile Char.isDigit ≠ []
            ∧ decimalValue ((chars "x.flac").takeWhile Char.isDigit) ≤ U64MAX
            ∧ o = decimalValue ((chars "x.flac").takeWhile Char.isDigit))) :=
  C5_amended_classification (chars "x.flac") (chars "flac") (chars "x.flac")
    (by decide) (by decide) (by decide)

/-- A dotfile name: the token after its final `'.'` is `flac`, yet
`Path::extension` gives it no extension at all. -/
def dotFlac : Str := chars ".flac"

/-- C9 counterexample: `".flac"` has the audio token `flac` after its
final `'.'`, so the claim's reading accepts it, but the code classifies it
as having no extension and rejects it. -/
theorem C9_counterexample :
    is_audio dotFlac = false ∧ is_audio_claim dotFlac = true ∧
    tryFrom dotFlac = .error (dotFlac, .NoExt) := by
  decide

/-- C9 amended: for a file name (no separator, non-empty, not `"."` or
`".."`), the predicate accepts exactly the names whose token after the
final `'.'` is a case-sensitive member of the audio set **and** that final
`'.'` is neither absent nor the leading character of the name; rejected
names classify as `NoExt` and are silently ignored. -/
theorem C9_amended_audio_predicate (name : Str)
    (h1 : '/' ∉ name) (h2 : name ≠ []) (h3 : name ≠ chars ".")
    (h4 : name ≠ chars "..") :
    (is_audio name = true
      ↔ (((name.reverse.takeWhile (fun c => c ≠ '.')).reverse).length + 1 < name.length
          ∧ (name.reverse.takeWhile (fun c => c ≠ '.')).reverse ∈ AUDIO_EXT))
    ∧ (is_audio name = false ↔ tryFrom name = .error (name, .NoExt)) := by
  have hfn : fileNameOpt name = some name := fileNameOpt_base h1 h2 h3 h4
  have hx : extensionOpt name = extensionOfName name := by
    rw [extensionOpt, hfn]
    rfl
  have hrlen :
      ((name.reverse.takeWhile (fun c => c ≠ '.')).reverse).length ≤ name.length := by
    rw [List.length_reverse]
    have h := length_takeWhile_le (fun c => decide (c ≠ '.')) name.reverse
    simpa using h
  have hext : extensionOfName name
      = if ((name.reverse.takeWhile (fun c => c ≠ '.')).reverse).length = name.length
        then none
        else if ((name.reverse.takeWhile (fun c => c ≠ '.')).reverse).length + 1
                  = name.length
             then none
             else some ((name.reverse.takeWhile (fun c => c ≠ '.')).reverse) := by
    rw [extensionOfName, if_neg h4]
  by_cases hA :
      ((name.reverse.takeWhile (fun c => c ≠ '.')).reverse).length = name.length
  · have hnone : extensionOpt name = none := by rw [hx, hext, if_pos hA]
    have hia : is_audio name = false := by unfold is_audio; rw [hnone]
    have htf : tryFrom name = .error (name, .NoExt) := by unfold tryFrom; rw [hnone]
    refine ⟨?_, ?_⟩
    · rw [hia]
      constructor
      · intro h; exact Bool.noConfusion h
      · rintro ⟨hlt, -⟩; omega
    · rw [hia, htf]
      simp
  · by_cases hB :
        ((name.reverse.takeWhile (fun c => c ≠ '.')).reverse).length + 1 = name.length
    · have hnone : extensionOpt name = none := by
        rw [hx, hext, if_neg hA, if_pos hB]
      have hia : is_audio name = false := by unfold is_audio; rw [hnone]
      have htf : tryFrom name = .error (name, .NoExt) := by unfold tryFrom; rw [hnone]
      refine ⟨?_, ?_⟩
      · rw [hia]
        constructor
        · intro h; exact Bool.noConfusion h
        · rintro ⟨hlt, -⟩; omega
      · rw [hia, htf]
        simp
    · have hsome : extensionOpt name
          = some ((name.reverse.takeWhile (fun c => c ≠ '.')).reverse) := by
        rw [hx, hext, if_neg hA, if_neg hB]
      have hlt :
          ((name.reverse.takeWhile (fun c => c ≠ '.')).reverse).length + 1
            < name.length := by omega
      by_cases hm : (name.reverse.takeWhile (fun c => c ≠ '.')).reverse ∈ AUDIO_EXT
      · have hia : is_audio name = true := by
          unfold is_audio
          rw [hsome]
          dsimp only
          exact decide_eq_true hm
        have htf_ne : tryFrom name ≠ .error (name, .NoExt) := by
          unfold tryFrom
          rw [hsome]
          dsimp only
          rw [if_pos hm, hfn]
          dsimp only
          rcases ho : filename_order name with _ | o
          · dsimp only
            intro h
            injection h with h
            injection h with ha hb
            exact NotAudiophile.noConfusion hb
          · dsimp only
            intro h
            exact Except.noConfusion h
        refine ⟨?_, ?_⟩
        · rw [hia]
          exact ⟨fun _ => ⟨hlt, hm⟩, fun _ => rfl⟩
        · rw [hia]
          constructor
          · intro h; exact Bool.noConfusion h
          · intro h; exact absurd h htf_ne
      · have hia : is_audio name = false := by
          unfold is_audio
          rw [hsome]
          dsimp only
          exact decide_eq_false hm
        have htf : tryFrom name = .error (name, .NoExt) := by
          unfold tryFrom
          rw [hsome]
          dsimp only
          rw [if_neg hm]
        refine ⟨?_, ?_⟩
        · rw [hia]
          constructor
          · intro h; exact Bool.noConfusion h
          · rintro ⟨-, hmm⟩; exact absurd hmm hm
        · rw [hia, htf]
          simp

/-- C9 amended witness: the amended predicate applied at `"a.flac"`. -/
theorem C9_amended_audio_predicate_witness :
    (is_audio (chars "a.flac") = true
      ↔ ((((chars "a.flac").reverse.takeWhile (fun c => c ≠ '.')).reverse).length + 1
            < (chars "a.flac").length
          ∧ ((chars "a.flac").reverse.takeWhile (fun c => c ≠ '.')).reverse ∈ AUDIO_EXT))
    ∧ (is_audio (chars "a.flac") = false
        ↔ tryFrom (chars "a.flac") = .error (chars "a.flac", .NoExt)) :=
  C9_amended_audio_predicate (chars "a.flac")
    (by decide) (by decide) (by decide) (by decide)

theorem forall₂_right_mem {R : Audiophile → Str → Prop} :
    ∀ {l : List Audiophile} {names : List Str}, List.Forall₂ R l names →
      ∀ n ∈ names, ∃ af ∈ l, R af n := by
  intro l names h
  induction h with
  | nil =>
    intro n hn
    exact absurd hn (by simp)
  | @cons af n' l' names' hr ht ih =>
    intro n hn
    rcases List.mem_cons.mp hn with h1 | h1
    · subst h1
      exact ⟨af, List.mem_cons_self af l', hr⟩
    · obtain ⟨af', hmem, hR⟩ := ih n h1
      exact ⟨af', List.mem_cons.mpr (Or.inr hmem), hR⟩

/-- C1: on a run that completes successfully, the playlist blob handed to
`fs::write` is exactly the concatenation, over the collected entries taken
in non-decreasing `order` (the postcondition of `sort_unstable_by_key`), of
each entry's base file name followed by one `'\n'`: no header lines, no
separator in any emitted name, and a trailing newline after the last
entry. -/
theorem C1_emission_shape (entries : List EntryResult)
    (sortFn : List Audiophile → List Audiophile)
    (data : List Audiophile) (out : Str)
    (hcollect : (collect_audio_files entries).2 = .ok data)
    (hperm : (sortFn data).Perm data)
    (hsorted : List.Sorted (fun a b : Audiophile => a.order ≤ b.order) (sortFn data))
    (hemit : emit (sortFn data) = some out) :
    main_run entries sortFn = ((collect_audio_files entries).1, .ok (some out))
    ∧ ∃ l names,
        l.Perm data
        ∧ List.Sorted (fun a b : Audiophile => a.order ≤ b.order) l
        ∧ List.Forall₂ (fun af n => fileNameOpt af.name = some n) l names
        ∧ (∀ n ∈ names, '/' ∉ n)
        ∧ out = (names.map (fun n => n ++ chars "\n")).flatten
        ∧ (data ≠ [] → out.getLast? = some '\n') := by
  constructor
  · unfold main_run
    rw [hcollect]
    dsimp only
    rw [hemit]
  · obtain ⟨names, hfa, hout⟩ := emit_some_names hemit
    refine ⟨sortFn data, names, hperm, hsorted, hfa, ?_, hout, ?_⟩
    · intro n hn
      obtain ⟨af, -, hR⟩ := forall₂_right_mem hfa n hn
      exact fileNameOpt_no_slash hR
    · intro hne
      rw [hout]
      apply flatten_lines_last
      intro hnil
      apply hne
      have h1 := hfa.length_eq
      have h2 := hperm.length_eq
      rw [hnil] at h1
      simp only [List.length_nil] at h1
      rw [h1] at h2
      exact (List.length_eq_zero.mp h2.symm)

/-- A one-file directory listing: the regular file `01.flac`, never
needing the demuxer. -/
def oneTrackDir : List EntryResult :=
  [.ok ⟨some true, some (chars "01.flac"), none⟩]

/-- C1 witness: the emission-shape theorem applied to a concrete
successful run over `oneTrackDir` with the identity arrangement. -/
theorem C1_emission_shape_witness :
    main_run oneTrackDir id
      = ((collect_audio_files oneTrackDir).1, .ok (some (chars "01.flac\n")))
    ∧ ∃ l names,
        l.Perm [Audiophile.mk 1 (chars "01.flac")]
        ∧ List.Sorted (fun a b : Audiophile => a.order ≤ b.order) l
        ∧ List.Forall₂ (fun af n => fileNameOpt af.name = some n) l names
        ∧ (∀ n ∈ names, '/' ∉ n)
        ∧ chars "01.flac\n" = (names.map (fun n => n ++ chars "\n")).flatten
        ∧ ([Audiophile.mk 1 (chars "01.flac")] ≠ []
            → (chars "01.flac\n").getLast? = some '\n') :=
  C1_emission_shape oneTrackDir id [Audiophile.mk 1 (chars "01.flac")]
    (chars "01.flac\n") (by decide) (List.Perm.refl _) (by simp) (by decide)

/-- C6: a scan IO error (unreadable entry, file-type probe failure,
non-UTF-8 name, or demuxer open failure) short-circuits the run with that
error and no playlist blob is produced; in particular a demuxer open
failure aborts the scan instead of becoming a per-file no-order warning. -/
theorem C6_error_short_circuit :
    (∀ (entries : List EntryResult) (sortFn : List Audiophile → List Audiophile)
        (e : IOError),
      (collect_audio_files entries).2 = .error e →
      main_run entries sortFn = ((collect_audio_files entries).1, .error e))
    ∧ (∀ (e : DirEntry) (rest : List EntryResult) (b : Bool) (buf : Str),
        e.ftypeRes = some true → e.nameUtf8 = some buf →
        tryFrom buf = .error (buf, .HasExtNoOrder) → e.meta = none →
        (collectGo (.ok e :: rest) b).2 = .error .demux
        ∧ Warning.unorderable buf ∉ (collectGo (.ok e :: rest) b).1) := by
  constructor
  · intro entries sortFn e h
    unfold main_run
    rw [h]
  · intro e rest b buf h1 h2 h3 h4
    rw [collectGo_demuxErr rest b h1 h2 h3 h4]
    constructor
    · rfl
    · cases b <;> simp

/-- C6 witness: an unreadable entry aborts the run, and a demuxer open
failure on `b.flac` aborts the scan with no per-file warning for it. -/
theorem C6_error_short_circuit_witness :
    main_run [EntryResult.err] id
      = (([] : List Warning), .error IOError.entryRead)
    ∧ (collectGo [EntryResult.ok ⟨some true, some (chars "b.flac"), none⟩] false).2
        = .error .demux
    ∧ Warning.unorderable (chars "b.flac")
        ∉ (collectGo [EntryResult.ok ⟨some true, some (chars "b.flac"), none⟩] false).1 := by
  refine ⟨?_, ?_, ?_⟩
  · exact C6_error_short_circuit.1 [EntryResult.err] id IOError.entryRead rfl
  · exact (C6_error_short_circuit.2 ⟨some true, some (chars "b.flac"), none⟩ [] false
      (chars "b.flac") rfl rfl (by decide) rfl).1
  · exact (C6_error_short_circuit.2 ⟨some true, some (chars "b.flac"), none⟩ [] false
      (chars "b.flac") rfl rfl (by decide) rfl).2

/-- C7: a scan emits the fallback-initialisation warning at most once —
exactly once when at least one entry escalates to the metadata fallback
(and then it is the first warning emitted), never on later escalations. -/
theorem C7_single_fallback_warning (entries : List EntryResult) :
    countInit (collect_audio_files entries).1 = min 1 (reachedEscalations entries)
    ∧ (Warning.initFallback ∈ (collect_audio_files entries).1 →
        (collect_audio_files entries).1.head? = some Warning.initFallback) := by
  constructor
  · have h := countInit_collectGo entries false
    rw [if_neg Bool.false_ne_true] at h
    exact h
  · exact initFallback_head entries

/-- A two-file directory listing in which both files escalate to the
metadata fallback and neither can be ordered. -/
def twoFallbackDir : List EntryResult :=
  [.ok ⟨some true, some (chars "b.flac"), some []⟩,
   .ok ⟨some true, some (chars "c.flac"), some []⟩]

/-- C7 witness: over `twoFallbackDir` (two escalations) exactly one
fallback warning is emitted, and it heads the warning list. -/
theorem C7_single_fallback_warning_witness :
    countInit (collect_audio_files twoFallbackDir).1
      = min 1 (reachedEscalations twoFallbackDir)
    ∧ (collect_audio_files twoFallbackDir).1.head? = some Warning.initFallback :=
  ⟨(C7_single_fallback_warning twoFallbackDir).1,
   (C7_single_fallback_warning twoFallbackDir).2 (by decide)⟩

/-- C8: an audio-extensioned file with no digit run whose metadata (read
successfully) has no parseable track tag yields a per-file warning naming
the file, contributes no collected entry, and the scan continues over the
remaining entries. -/
theorem C8_unorderable_warned_and_skipped
    (e : DirEntry) (rest : List EntryResult) (b : Bool) (buf : Str)
    (tags : List (Str × Str))
    (h1 : e.ftypeRes = some true) (h2 : e.nameUtf8 = some buf)
    (h3 : tryFrom buf = .error (buf, .HasExtNoOrder))
    (h4 : e.meta = some tags) (h5 : get_track tags = none) :
    (collectGo (.ok e :: rest) b).1
      = (if b then [] else [Warning.initFallback])
          ++ Warning.unorderable buf :: (collectGo rest true).1
    ∧ Warning.unorderable buf ∈ (collectGo (.ok e :: rest) b).1
    ∧ (collectGo (.ok e :: rest) b).2 = (collectGo rest true).2 := by
  have h := collectGo_metaNoOrder rest b h1 h2 h3 h4 h5
  refine ⟨by rw [h], ?_, by rw [h]⟩
  rw [h]
  cases b <;> simp

/-- C8 witness: the per-file-warning theorem applied to `b.flac` with
empty metadata, followed by the remaining listing `[ok 01.flac]`. -/
theorem C8_unorderable_warned_and_skipped_witness :
    (collectGo (.ok ⟨some true, some (chars "b.flac"), some []⟩ :: oneTrackDir) false).1
      = (if false then [] else [Warning.initFallback])
          ++ Warning.unorderable (chars "b.flac") :: (collectGo oneTrackDir true).1
    ∧ Warning.unorderable (chars "b.flac")
        ∈ (collectGo (.ok ⟨some true, some (chars "b.flac"), some []⟩ :: oneTrackDir) false).1
    ∧ (collectGo (.ok ⟨some true, some (chars "b.flac"), some []⟩ :: oneTrackDir) false).2
        = (collectGo oneTrackDir true).2 :=
  C8_unorderable_warned_and_skipped ⟨some true, some (chars "b.flac"), some []⟩
    oneTrackDir false (chars "b.flac") [] rfl rfl (by decide) rfl (by decide)

/-- C10: every entry the scan collects has a present, non-empty base name,
so `file_name().unwrap()` during emission cannot panic on any arrangement
of the collected entries. -/
theorem C10_basename_present (entries : List EntryResult) (l : List Audiophile)
    (h : (collect_audio_files entries).2 = .ok l) :
    (∀ af ∈ l, ∃ n, fileNameOpt af.name = some n ∧ n ≠ [])
    ∧ ∀ l' : List Audiophile, l'.Perm l → (emit l').isSome = true := by
  have hn := collectGo_ok_names entries false l h
  constructor
  · intro af hm
    obtain ⟨n, hfn⟩ := hn af hm
    exact ⟨n, hfn, fileNameOpt_ne_nil hfn⟩
  · intro l' hp
    apply emit_isSome
    intro af hm
    exact hn af (hp.mem_iff.mp hm)

/-- C10 witness: the no-panic theorem applied to the concrete scan of
`oneTrackDir` and the identity arrangement of its single entry. -/
theorem C10_basename_present_witness :
    (∀ af ∈ [Audiophile.mk 1 (chars "01.flac")],
        ∃ n, fileNameOpt af.name = some n ∧ n ≠ [])
    ∧ ∀ l' : List Audiophile, l'.Perm [Audiophile.mk 1 (chars "01.flac")]
        → (emit l').isSome = true :=
  C10_basename_present oneTrackDir [Audiophile.mk 1 (chars "01.flac")] (by decide)
